import Mathlib

/-!
Shallow embedding of SQLCompare (Go): a tolerant `CREATE TABLE` schema-dump
parser (`parseTables`), a directional schema diff engine (`compareTables`)
and the kind-grouping post-pass (`groupByType`).

Go maps are embedded as association lists `List (String × α)`; Go map
assignment `m[k] = v` is `minsert` (replace in place, else append) and Go
map lookup with comma-ok is `mfind`.  A Go runtime panic (index out of
range on a token slice) is embedded as `none` : the parser has type
`String → Option Schema`.
-/

namespace SQLCompare

/-! ### Go string primitives, modelled over `List Char` -/

/-- Go `strings.Split(s, sep)` for a one-character separator: split at every
occurrence, never collapsing; the empty string yields `[[]]`. -/
def splitOnChar (c : Char) : List Char → List (List Char)
  | [] => [[]]
  | x :: xs =>
    let r := splitOnChar c xs
    if x == c then [] :: r
    else
      match r with
      | [] => [[x]]
      | y :: ys => (x :: y) :: ys

/-- Go `strings.Split` on a single-character separator, over `String`. -/
def goSplit (s : String) (c : Char) : List String :=
  (splitOnChar c s.data).map (fun l => ⟨l⟩)

/-- Go `strings.Trim(s, cutset)` for a one-character cutset: drop every
leading and trailing occurrence of `c`. -/
def trimChar (s : String) (c : Char) : String :=
  ⟨((s.data.dropWhile (· == c)).reverse.dropWhile (· == c)).reverse⟩

/-- Go `strings.Join(xs, " ")`. -/
def joinSpace : List String → String
  | [] => ""
  | [x] => x
  | x :: xs => x ++ " " ++ joinSpace xs

/-- The backquote character used for identifier quoting in MySQL dumps. -/
def backquote : Char := Char.ofNat 96

/-! ### Data model (structs of `SQLCompare.go`)

The Go field `Type` is rendered `Typ`, since `Type` is reserved in Lean. -/

structure Column where
  Name : String
  Typ : String
  Other : String
  deriving DecidableEq, Repr

structure Index where
  Name : String
  ColumnName : String
  deriving DecidableEq, Repr

structure Constraint where
  Name : String
  ColumnName : String
  Typ : String
  Other : String
  deriving DecidableEq, Repr

structure Table where
  Name : String
  Columns : List (String × Column)
  Indexes : List (String × Index)
  Constraints : List (String × List (String × Constraint))
  deriving DecidableEq, Repr

/-- A schema: Go `map[string]Table`. -/
abbrev Schema := List (String × Table)

def MissingTable : String := "MISSING_TABLE"
def MissingColumn : String := "MISSING_COLUMN"
def WrongColumnType : String := "WRONG_COLUMN_TYPE"
def WrongColumnOther : String := "WRONG_COLUMN_OTHER"
def MissingIndex : String := "MISSING_INDEX"
def MissingConstraint : String := "MISSING_CONSTRAINT"
def WrongConstraintOther : String := "WRONG_CONSTRAINT_OTHER"

structure Diff where
  Typ : String
  Target : String
  A : String
  B : String
  deriving DecidableEq, Repr

/-! ### Go map operations on association lists -/

/-- Go map lookup `m[k]` with comma-ok: first binding of `k`. -/
def mfind {α : Type} (m : List (String × α)) (k : String) : Option α :=
  match m with
  | [] => none
  | (k2, v) :: rest => if k2 == k then some v else mfind rest k

/-- Go map assignment `m[k] = v`: replace the binding in place, or append. -/
def minsert {α : Type} (m : List (String × α)) (k : String) (v : α) :
    List (String × α) :=
  match m with
  | [] => [(k, v)]
  | (k2, v2) :: rest =>
    if k2 == k then (k, v) :: rest else (k2, v2) :: minsert rest k v

/-- The keys of an association list are pairwise distinct. -/
def NodupKeys {α : Type} (m : List (String × α)) : Prop :=
  (m.map Prod.fst).Nodup

instance {α : Type} (m : List (String × α)) : Decidable (NodupKeys m) :=
  inferInstanceAs (Decidable ((m.map Prod.fst).Nodup))

/-! ### Diff engine (`compareTables`) -/

/-- The per-column body of the column loop of `compareTables`. -/
def compareColumn (tableAName : String) (tableB : Table) (columnA : Column) :
    List Diff :=
  match mfind tableB.Columns columnA.Name with
  | none => [⟨MissingColumn, tableAName, columnA.Name, ""⟩]
  | some columnB =>
    (if columnA.Typ ≠ columnB.Typ then
      [⟨WrongColumnType, tableAName ++ "." ++ columnA.Name,
        columnA.Typ, columnB.Typ⟩]
     else [])
    ++
    (if columnA.Other ≠ columnB.Other then
      [⟨WrongColumnOther, tableAName ++ "." ++ columnA.Name,
        columnA.Other, columnB.Other⟩]
     else [])

/-- The per-index body of the index loop of `compareTables`. -/
def compareIndex (tableAName : String) (tableB : Table) (indexA : Index) :
    List Diff :=
  match mfind tableB.Indexes indexA.ColumnName with
  | none =>
    [⟨MissingIndex, tableAName ++ "." ++ indexA.ColumnName, indexA.Name, ""⟩]
  | some _ => []

/-- The per-(kind, constraint) body of the constraint loop of
`compareTables`; `tableB.Constraints[columnNameA][constraintTypeA]` on a
missing outer key reads Go's nil map, hence the `Option.bind`. -/
def compareConstraint (tableAName columnNameA : String) (tableB : Table)
    (entry : String × Constraint) : List Diff :=
  let constraintTypeA := entry.1
  let constraintA := entry.2
  match (mfind tableB.Constraints columnNameA).bind
      (fun m => mfind m constraintTypeA) with
  | none =>
    [⟨MissingConstraint, tableAName ++ "." ++ columnNameA, constraintA.Typ, ""⟩]
  | some constraintB =>
    if constraintA.Other ≠ constraintB.Other then
      [⟨WrongConstraintOther,
        tableAName ++ "." ++ columnNameA ++ "." ++ constraintA.Typ,
        constraintA.Other, constraintB.Other⟩]
    else []

/-- The body of the outer table loop of `compareTables`. -/
def compareTable (tableMapB : Schema) (tableA : Table) : List Diff :=
  match mfind tableMapB tableA.Name with
  | none => [⟨MissingTable, tableA.Name, tableA.Name, ""⟩]
  | some tableB =>
    (tableA.Columns.flatMap (fun p => compareColumn tableA.Name tableB p.2))
    ++ (tableA.Indexes.flatMap (fun p => compareIndex tableA.Name tableB p.2))
    ++ (tableA.Constraints.flatMap
        (fun p => p.2.flatMap (compareConstraint tableA.Name p.1 tableB)))

/-- `compareTables(tableMapA, tableMapB)`: directional diff of schema A
against schema B, iterating over A's tables. -/
def compareTables (tableMapA tableMapB : Schema) : List Diff :=
  tableMapA.flatMap (fun p => compareTable tableMapB p.2)

/-! ### Grouping post-pass (`groupByType`) -/

/-- The seven kind buckets accumulated by `groupByType`'s loop. -/
structure DiffGroups where
  missingTable : List Diff
  missingColumn : List Diff
  wrongColumnType : List Diff
  wrongColumnOther : List Diff
  missingIndex : List Diff
  missingConstraint : List Diff
  wrongConstraintOther : List Diff

/-- The switch statement inside `groupByType`'s loop: append `d` to the
bucket of its kind; an unknown kind falls through and is dropped. -/
def groupStep (g : DiffGroups) (d : Diff) : DiffGroups :=
  if d.Typ == MissingTable then
    { g with missingTable := g.missingTable ++ [d] }
  else if d.Typ == MissingColumn then
    { g with missingColumn := g.missingColumn ++ [d] }
  else if d.Typ == WrongColumnType then
    { g with wrongColumnType := g.wrongColumnType ++ [d] }
  else if d.Typ == WrongColumnOther then
    { g with wrongColumnOther := g.wrongColumnOther ++ [d] }
  else if d.Typ == MissingIndex then
    { g with missingIndex := g.missingIndex ++ [d] }
  else if d.Typ == MissingConstraint then
    { g with missingConstraint := g.missingConstraint ++ [d] }
  else if d.Typ == WrongConstraintOther then
    { g with wrongConstraintOther := g.wrongConstraintOther ++ [d] }
  else g

/-- `groupByType(ds)`: bucket the diffs by kind, then concatenate the
buckets in the fixed priority order of the Go `slices` literal. -/
def groupByType (ds : List Diff) : List Diff :=
  let g := ds.foldl groupStep ⟨[], [], [], [], [], [], []⟩
  g.missingTable ++ g.missingColumn ++ g.wrongColumnType ++ g.wrongColumnOther
    ++ g.missingConstraint ++ g.wrongConstraintOther ++ g.missingIndex

/-! ### Parser (`parseTables`)

Go's `var table Table` zero value, line classification, and the loop over
`strings.Split(data, "\n")`.  Every Go token access `infos[i]` that can
panic (index out of range) is an `infos[i]?` match whose `none` branch
aborts the whole parse with `none`. -/

/-- Go's zero value `var table Table`. -/
def zeroTable : Table := ⟨"", [], [], []⟩

/-- The parser's loop state: current table, committed tables, and the
`analyzingTable` flag. -/
structure PState where
  table : Table
  tables : Schema
  analyzingTable : Bool
  deriving DecidableEq, Repr

def keywords : List String := ["PRIMARY", "KEY", "CONSTRAINT", "UNIQUE"]

/-- `isKeyword` of `parseTables`: true for a skip keyword, the empty token
or a comment marker. -/
def isKeyword (str : String) : Bool :=
  keywords.any (fun v => str == v || str == "" || str == "--")

/-- Store a constraint under `(columnName, constraintType)`, creating the
inner map when Go's `table.Constraints[columnName]` is nil. -/
def storeConstraint (t : Table) (columnName constraintType : String)
    (c : Constraint) : Table :=
  let inner := (mfind t.Constraints columnName).getD []
  let newCons := minsert t.Constraints columnName (minsert inner constraintType c)
  { t with Constraints := newCons }

/-- The classification branches after the `CREATE TABLE` check: column
definition, `KEY`, `CONSTRAINT`, `PRIMARY`/`UNIQUE`; any other line leaves
the state unchanged. -/
def restOfBranches (st : PState) (infos : List String) : Option PState :=
  let head := infos.headD ""
  if st.analyzingTable && !isKeyword head then
    -- column definition: needs infos[1] (and the slice infos[2:])
    match infos[1]? with
    | none => none
    | some t1 =>
      let other := trimChar (joinSpace (infos.drop 2)) ','
      let name := trimChar head backquote
      let newColumns := minsert st.table.Columns name ⟨name, t1, other⟩
      some { st with table := { st.table with Columns := newColumns } }
  else if st.analyzingTable && head == "KEY" then
    match infos[1]? with
    | none => none
    | some t1 =>
      match infos[2]? with
      | none => none
      | some t2 =>
        let name := trimChar t1 backquote
        let columnName :=
          trimChar (trimChar (trimChar (trimChar t2 ',') '(') ')') backquote
        let newIndexes := minsert st.table.Indexes columnName ⟨name, columnName⟩
        some { st with table := { st.table with Indexes := newIndexes } }
  else if st.analyzingTable && head == "CONSTRAINT" then
    match infos[1]? with
    | none => none
    | some t1 =>
      match infos[4]? with
      | none => none
      | some t4 =>
        match infos[2]? with
        | none => none
        | some t2 =>
          let name := trimChar t1 backquote
          let columnName := trimChar (trimChar (trimChar t4 '(') ')') backquote
          let constraintType := t2
          let other := trimChar (joinSpace (infos.drop 5)) ','
          let newTable := storeConstraint st.table columnName constraintType
            ⟨name, columnName, constraintType, other⟩
          some { st with table := newTable }
  else if st.analyzingTable && (head == "PRIMARY" || head == "UNIQUE") then
    match infos[2]? with
    | none => none
    | some t2 =>
      let columnName :=
        trimChar (trimChar (trimChar (trimChar t2 ',') '(') ')') backquote
      let constraintType := head
      let name := columnName
      let newTable := storeConstraint st.table columnName constraintType
        ⟨name, columnName, constraintType, ""⟩
      some { st with table := newTable }
  else some st

/-- One iteration of the parser loop over a raw line. -/
def parseLine (st : PState) (rawValue : String) : Option PState :=
  let value := trimChar rawValue ' '
  let infos := goSplit value ' '
  -- len(infos) > 1 && infos[1] == "ENGINE=InnoDB"
  if infos[1]? = some "ENGINE=InnoDB" then some st
  else if infos.headD "" == "CREATE" then
    -- the guard infos[0] == "CREATE" && infos[1] == "TABLE" evaluates
    -- infos[1] whenever the first conjunct holds
    match infos[1]? with
    | none => none
    | some t1 =>
      if t1 == "TABLE" then
        match infos[2]? with
        | none => none
        | some t2 =>
          let tables :=
            if st.analyzingTable then minsert st.tables st.table.Name st.table
            else st.tables
          let tableName := trimChar t2 backquote
          some ⟨⟨tableName, [], [], []⟩, tables, true⟩
      else restOfBranches st infos
  else restOfBranches st infos

/-- The parser loop over the split lines. -/
def parseLines : PState → List String → Option PState
  | st, [] => some st
  | st, l :: ls =>
    match parseLine st l with
    | none => none
    | some st2 => parseLines st2 ls

/-- `parseTables(data)`: split on newlines, run the loop from the zero
state, then unconditionally commit the current table. -/
def parseTables (data : String) : Option Schema :=
  match parseLines ⟨zeroTable, [], false⟩ (goSplit data '\n') with
  | none => none
  | some st => some (minsert st.tables st.table.Name st.table)

/-! ### Predicates used by the statements -/

/-- Well-formed table: the three mappings are keyed (without duplicates) by
the field the code itself keys them by — column name, index column name,
and, for constraints, column name then constraint kind.  Every table built
by `parseTables` has this shape. -/
def WFTable (t : Table) : Prop :=
  NodupKeys t.Columns ∧ (∀ p ∈ t.Columns, p.1 = p.2.Name) ∧
  NodupKeys t.Indexes ∧ (∀ p ∈ t.Indexes, p.1 = p.2.ColumnName) ∧
  NodupKeys t.Constraints ∧ (∀ p ∈ t.Constraints, NodupKeys p.2)

instance (t : Table) : Decidable (WFTable t) := by
  unfold WFTable; infer_instance

/-- Well-formed schema: tables keyed by their own name, without duplicates,
each table well-formed. -/
def WFSchema (m : Schema) : Prop :=
  NodupKeys m ∧ ∀ p ∈ m, p.1 = p.2.Name ∧ WFTable p.2

instance (m : Schema) : Decidable (WFSchema m) := by
  unfold WFSchema; infer_instance

/-- A diff record that originates from an element of the table `tA`:
its kind, target and A-side value are those `compareTables` builds from a
table, column, index or constraint actually present in `tA`. -/
def OriginatesFromTable (tA : Table) (d : Diff) : Prop :=
  (d.Typ = MissingTable ∧ d.Target = tA.Name ∧ d.A = tA.Name ∧ d.B = "") ∨
  (∃ q ∈ tA.Columns,
    (d.Typ = MissingColumn ∧ d.Target = tA.Name ∧ d.A = q.2.Name ∧ d.B = "") ∨
    (d.Typ = WrongColumnType ∧ d.Target = tA.Name ++ "." ++ q.2.Name ∧
      d.A = q.2.Typ) ∨
    (d.Typ = WrongColumnOther ∧ d.Target = tA.Name ++ "." ++ q.2.Name ∧
      d.A = q.2.Other)) ∨
  (∃ q ∈ tA.Indexes,
    d.Typ = MissingIndex ∧ d.Target = tA.Name ++ "." ++ q.2.ColumnName ∧
    d.A = q.2.Name ∧ d.B = "") ∨
  (∃ q ∈ tA.Constraints, ∃ r ∈ q.2,
    (d.Typ = MissingConstraint ∧ d.Target = tA.Name ++ "." ++ q.1 ∧
      d.A = r.2.Typ ∧ d.B = "") ∨
    (d.Typ = WrongConstraintOther ∧
      d.Target = tA.Name ++ "." ++ q.1 ++ "." ++ r.2.Typ ∧ d.A = r.2.Other))

instance (tA : Table) (d : Diff) : Decidable (OriginatesFromTable tA d) := by
  unfold OriginatesFromTable; infer_instance

/-- A diff record that originates from an element of schema `A`: the
directionality property of `compareTables`. -/
def DiffFromA (tableMapA : Schema) (d : Diff) : Prop :=
  ∃ p ∈ tableMapA, OriginatesFromTable p.2 d

instance (m : Schema) (d : Diff) : Decidable (DiffFromA m d) := by
  unfold DiffFromA; infer_instance

/-- One of the seven diff kinds `compareTables` can emit. -/
def knownKind (d : Diff) : Bool :=
  d.Typ == MissingTable || d.Typ == MissingColumn || d.Typ == WrongColumnType
    || d.Typ == WrongColumnOther || d.Typ == MissingIndex
    || d.Typ == MissingConstraint || d.Typ == WrongConstraintOther

/-- The spec's description of the grouping pass: the kind buckets — stable
filters of the input — concatenated in the fixed priority order
MISSING_TABLE, MISSING_COLUMN, WRONG_COLUMN_TYPE, WRONG_COLUMN_OTHER,
MISSING_CONSTRAINT, WRONG_CONSTRAINT_OTHER, MISSING_INDEX.  To be compared
with `groupByType`. -/
def kindBuckets (ds : List Diff) : List Diff :=
  ds.filter (fun d => d.Typ == MissingTable)
    ++ ds.filter (fun d => d.Typ == MissingColumn)
    ++ ds.filter (fun d => d.Typ == WrongColumnType)
    ++ ds.filter (fun d => d.Typ == WrongColumnOther)
    ++ ds.filter (fun d => d.Typ == MissingConstraint)
    ++ ds.filter (fun d => d.Typ == WrongConstraintOther)
    ++ ds.filter (fun d => d.Typ == MissingIndex)

/-- All constraints a table stores for a given (column name, kind) pair. -/
def constraintsFor (t : Table) (col kind : String) : List Constraint :=
  (t.Constraints.filter (fun q => q.1 == col)).flatMap
    (fun q => (q.2.filter (fun r => r.1 == kind)).map Prod.snd)

/-- Constraint bookkeeping invariant of the parser state: at most one
inner map per column name and at most one constraint per kind inside it. -/
def TableConsNodup (t : Table) : Prop :=
  NodupKeys t.Constraints ∧ ∀ p ∈ t.Constraints, NodupKeys p.2

instance (t : Table) : Decidable (TableConsNodup t) := by
  unfold TableConsNodup; infer_instance

/-- The token list of a line supplies every token its first-token
classification can consume: under this bound no `infos[i]` access of
`parseLine` is out of range, whatever the loop state. -/
def infosSafe (infos : List String) : Prop :=
  (infos.headD "" = "CREATE" →
    2 ≤ infos.length ∧ (infos[1]? = some "TABLE" → 3 ≤ infos.length))
  ∧ (isKeyword (infos.headD "") = false → 2 ≤ infos.length)
  ∧ (infos.headD "" = "KEY" → 3 ≤ infos.length)
  ∧ (infos.headD "" = "CONSTRAINT" → 5 ≤ infos.length)
  ∧ ((infos.headD "" = "PRIMARY" ∨ infos.headD "" = "UNIQUE") →
      3 ≤ infos.length)

instance (infos : List String) : Decidable (infosSafe infos) := by
  unfold infosSafe; infer_instance

/-- A raw line whose token list is safe in the sense of `infosSafe`. -/
def LineSafe (rawValue : String) : Prop :=
  infosSafe (goSplit (trimChar rawValue ' ') ' ')

instance (rawValue : String) : Decidable (LineSafe rawValue) := by
  unfold LineSafe; infer_instance

/-- Every line of the input is safe in the sense of `LineSafe`. -/
def AllLinesSafe (data : String) : Prop :=
  ∀ l ∈ goSplit data '\n', LineSafe l

instance (data : String) : Decidable (AllLinesSafe data) := by
  unfold AllLinesSafe; infer_instance

/-- A `CREATE TABLE` header line: first two tokens `CREATE` `TABLE`. -/
def isHeaderLine (rawValue : String) : Bool :=
  let infos := goSplit (trimChar rawValue ' ') ' '
  infos.headD "" == "CREATE" && infos[1]? == some "TABLE"

/-- No line of the input is a `CREATE TABLE` header line. -/
def noHeaderLines (data : String) : Bool :=
  (goSplit data '\n').all (fun l => !isHeaderLine l)

/-! ### Concrete example schemas, used to instantiate the theorems -/

/-- Example reference table: two columns, two indexes, one constraint. -/
def tblUsersA : Table :=
  ⟨"users",
   [("id", ⟨"id", "INT", "NOT NULL"⟩), ("name", ⟨"name", "VARCHAR(50)", ""⟩)],
   [("name", ⟨"idx_name", "name"⟩), ("id", ⟨"idx_id", "id"⟩)],
   [("id", [("PRIMARY", ⟨"id", "id", "PRIMARY", ""⟩)])]⟩

/-- Example comparison table: `id` differs in type and in "other"; the
`name` column and index are absent; the `id` index exists under another
name; the constraint is absent. -/
def tblUsersB : Table :=
  ⟨"users", [("id", ⟨"id", "BIGINT", "NULL"⟩)], [("id", ⟨"pk_id", "id"⟩)], []⟩

def exA : Schema := [("users", tblUsersA)]

def exB : Schema := [("users", tblUsersB)]

/-! ### Lemmas about the map operations -/

theorem mfind_eq_of_mem {α : Type} {m : List (String × α)} {k : String}
    {v : α} (hnd : NodupKeys m) (hmem : (k, v) ∈ m) : mfind m k = some v := by
  induction m with
  | nil => simp at hmem
  | cons p rest ih =>
    obtain ⟨k2, v2⟩ := p
    simp only [NodupKeys, List.map_cons, List.nodup_cons] at hnd
    rcases List.mem_cons.mp hmem with h | h
    · obtain ⟨rfl, rfl⟩ := Prod.mk.injEq .. ▸ h
      simp [mfind]
    · have hne : k2 ≠ k := by
        rintro rfl
        exact hnd.1 (List.mem_map.mpr ⟨(k2, v), h, rfl⟩)
      simpa [mfind, hne] using ih hnd.2 h

theorem mfind_mem {α : Type} {m : List (String × α)} {k : String} {v : α}
    (h : mfind m k = some v) : (k, v) ∈ m := by
  induction m with
  | nil => simp [mfind] at h
  | cons p rest ih =>
    obtain ⟨k2, v2⟩ := p
    by_cases hk : k2 = k
    · subst hk
      simp only [mfind, beq_self_eq_true, if_true, Option.some.injEq] at h
      subst h
      exact List.mem_cons_self _ _
    · simp only [mfind, beq_iff_eq, hk, if_false] at h
      exact List.mem_cons_of_mem _ (ih h)

theorem mem_minsert {α : Type} {m : List (String × α)} {k : String} {v : α}
    {p : String × α} (h : p ∈ minsert m k v) : p ∈ m ∨ p = (k, v) := by
  induction m with
  | nil => simpa [minsert] using h
  | cons q rest ih =>
    obtain ⟨k2, v2⟩ := q
    by_cases hk : k2 = k
    · subst hk
      simp only [minsert, beq_self_eq_true, if_true] at h
      rcases List.mem_cons.mp h with h | h
      · exact Or.inr h
      · exact Or.inl (List.mem_cons_of_mem _ h)
    · simp only [minsert, beq_iff_eq, hk, if_false] at h
      rcases List.mem_cons.mp h with h | h
      · exact Or.inl (h ▸ List.mem_cons_self _ _)
      · rcases ih h with h | h
        · exact Or.inl (List.mem_cons_of_mem _ h)
        · exact Or.inr h

theorem keys_minsert {α : Type} (m : List (String × α)) (k : String) (v : α) :
    (minsert m k v).map Prod.fst =
      if k ∈ m.map Prod.fst then m.map Prod.fst else m.map Prod.fst ++ [k] := by
  induction m with
  | nil => simp [minsert]
  | cons q rest ih =>
    obtain ⟨k2, v2⟩ := q
    by_cases hk : k2 = k
    · subst hk
      simp [minsert]
    · simp only [minsert, beq_iff_eq, hk, if_false, List.map_cons, ih]
      have : (k ∈ k2 :: rest.map Prod.fst) ↔ (k ∈ rest.map Prod.fst) := by
        simp [Ne.symm hk]
      by_cases hmem : k ∈ rest.map Prod.fst
      · simp [hmem, this]
      · simp [hmem, this]

theorem nodupKeys_minsert {α : Type} {m : List (String × α)} (k : String)
    (v : α) (hnd : NodupKeys m) : NodupKeys (minsert m k v) := by
  unfold NodupKeys at *
  rw [keys_minsert]
  by_cases hmem : k ∈ m.map Prod.fst
  · simpa [hmem] using hnd
  · simp only [hmem, if_false]
    exact List.Nodup.append hnd (List.nodup_singleton k)
      (by simpa [List.disjoint_singleton] using hmem)

theorem filter_key_length_le_one {α : Type} {m : List (String × α)}
    (k : String) (hnd : NodupKeys m) :
    (m.filter (fun p => p.1 == k)).length ≤ 1 := by
  induction m with
  | nil => simp
  | cons q rest ih =>
    obtain ⟨k2, v2⟩ := q
    simp only [NodupKeys, List.map_cons, List.nodup_cons] at hnd
    by_cases hk : k2 = k
    · subst hk
      have hnil : rest.filter (fun p => p.1 == k2) = [] := by
        rw [List.filter_eq_nil_iff]
        intro p hp hkey
        exact hnd.1 (List.mem_map.mpr ⟨p, hp, (beq_iff_eq.mp hkey).symm ▸ rfl⟩)
      simp [List.filter_cons, hnil]
    · simpa [List.filter_cons, hk] using ih hnd.2

/-! ### Equation lemmas for the diff engine -/

theorem compareTable_of_find_none {B : Schema} {tA : Table}
    (hf : mfind B tA.Name = none) :
    compareTable B tA = [⟨MissingTable, tA.Name, tA.Name, ""⟩] := by
  unfold compareTable; rw [hf]

theorem compareTable_of_find_some {B : Schema} {tA tB : Table}
    (hf : mfind B tA.Name = some tB) :
    compareTable B tA =
      (tA.Columns.flatMap (fun p => compareColumn tA.Name tB p.2))
      ++ (tA.Indexes.flatMap (fun p => compareIndex tA.Name tB p.2))
      ++ (tA.Constraints.flatMap
          (fun p => p.2.flatMap (compareConstraint tA.Name p.1 tB))) := by
  unfold compareTable; rw [hf]

theorem compareColumn_of_find_none {n : String} {tB : Table} {cA : Column}
    (hc : mfind tB.Columns cA.Name = none) :
    compareColumn n tB cA = [⟨MissingColumn, n, cA.Name, ""⟩] := by
  unfold compareColumn; rw [hc]

theorem compareColumn_of_find_some {n : String} {tB : Table} {cA cB : Column}
    (hc : mfind tB.Columns cA.Name = some cB) :
    compareColumn n tB cA =
      (if cA.Typ ≠ cB.Typ then
        [⟨WrongColumnType, n ++ "." ++ cA.Name, cA.Typ, cB.Typ⟩]
       else [])
      ++
      (if cA.Other ≠ cB.Other then
        [⟨WrongColumnOther, n ++ "." ++ cA.Name, cA.Other, cB.Other⟩]
       else []) := by
  unfold compareColumn; rw [hc]

theorem compareIndex_of_find_none {n : String} {tB : Table} {iA : Index}
    (hi : mfind tB.Indexes iA.ColumnName = none) :
    compareIndex n tB iA =
      [⟨MissingIndex, n ++ "." ++ iA.ColumnName, iA.Name, ""⟩] := by
  unfold compareIndex; rw [hi]

theorem compareIndex_of_find_some {n : String} {tB : Table} {iA : Index}
    {iB : Index} (hi : mfind tB.Indexes iA.ColumnName = some iB) :
    compareIndex n tB iA = [] := by
  unfold compareIndex; rw [hi]

theorem compareConstraint_of_find_none {n col : String} {tB : Table}
    {entry : String × Constraint}
    (hc : (mfind tB.Constraints col).bind (fun m => mfind m entry.1) = none) :
    compareConstraint n col tB entry =
      [⟨MissingConstraint, n ++ "." ++ col, entry.2.Typ, ""⟩] := by
  simp only [compareConstraint, hc]

theorem compareConstraint_of_find_some {n col : String} {tB : Table}
    {entry : String × Constraint} {cB : Constraint}
    (hc : (mfind tB.Constraints col).bind (fun m => mfind m entry.1) = some cB) :
    compareConstraint n col tB entry =
      if entry.2.Other ≠ cB.Other then
        [⟨WrongConstraintOther, n ++ "." ++ col ++ "." ++ entry.2.Typ,
          entry.2.Other, cB.Other⟩]
      else [] := by
  simp only [compareConstraint, hc]

/-! ### Directionality: every diff originates from an element of A -/

theorem origin_of_mem_compareTable {B : Schema} {tA : Table} {d : Diff}
    (h : d ∈ compareTable B tA) : OriginatesFromTable tA d := by
  rcases hf : mfind B tA.Name with _ | tB
  · rw [compareTable_of_find_none hf] at h
    simp only [List.mem_singleton] at h
    subst h
    exact Or.inl ⟨rfl, rfl, rfl, rfl⟩
  · rw [compareTable_of_find_some hf] at h
    rcases List.mem_append.mp h with h | h
    rcases List.mem_append.mp h with h | h
    -- columns
    · obtain ⟨q, hq, hd⟩ := List.mem_flatMap.mp h
      refine Or.inr (Or.inl ⟨q, hq, ?_⟩)
      rcases hc : mfind tB.Columns q.2.Name with _ | cB
      · rw [compareColumn_of_find_none hc] at hd
        simp only [List.mem_singleton] at hd
        subst hd
        exact Or.inl ⟨rfl, rfl, rfl, rfl⟩
      · rw [compareColumn_of_find_some hc] at hd
        rcases List.mem_append.mp hd with hd | hd <;> split at hd <;>
          simp only [List.mem_singleton, List.not_mem_nil] at hd
        · subst hd; exact Or.inr (Or.inl ⟨rfl, rfl, rfl⟩)
        · subst hd; exact Or.inr (Or.inr ⟨rfl, rfl, rfl⟩)
    -- indexes
    · obtain ⟨q, hq, hd⟩ := List.mem_flatMap.mp h
      refine Or.inr (Or.inr (Or.inl ⟨q, hq, ?_⟩))
      rcases hi : mfind tB.Indexes q.2.ColumnName with _ | iB
      · rw [compareIndex_of_find_none hi] at hd
        simp only [List.mem_singleton] at hd
        subst hd
        exact ⟨rfl, rfl, rfl, rfl⟩
      · rw [compareIndex_of_find_some hi] at hd
        simp at hd
    -- constraints
    · obtain ⟨q, hq, hd⟩ := List.mem_flatMap.mp h
      obtain ⟨r, hr, hd⟩ := List.mem_flatMap.mp hd
      refine Or.inr (Or.inr (Or.inr ⟨q, hq, r, hr, ?_⟩))
      rcases hc : (mfind tB.Constraints q.1).bind (fun m => mfind m r.1)
        with _ | cB
      · rw [compareConstraint_of_find_none hc] at hd
        simp only [List.mem_singleton] at hd
        subst hd
        exact Or.inl ⟨rfl, rfl, rfl, rfl⟩
      · rw [compareConstraint_of_find_some hc] at hd
        split at hd <;> simp only [List.mem_singleton, List.not_mem_nil] at hd
        subst hd
        exact Or.inr ⟨rfl, rfl, rfl⟩

/-! ### C1: the diff engine is directional -/

/-- C1: `compareTables` only emits diffs for tables, columns, indexes and
constraints present in A: every diff record of `compareTables A B`
originates from an element of A (`DiffFromA`), so an element present only
in B never produces a diff record. -/
theorem compare_directional (A B : Schema) (d : Diff)
    (h : d ∈ compareTables A B) : DiffFromA A d := by
  obtain ⟨p, hp, hd⟩ := List.mem_flatMap.mp h
  exact ⟨p, hp, origin_of_mem_compareTable hd⟩

theorem compare_directional_witness :
    (⟨WrongColumnType, "users" ++ "." ++ "id", "INT", "BIGINT"⟩ : Diff)
      ∈ compareTables exA exB ∧
    DiffFromA exA ⟨WrongColumnType, "users" ++ "." ++ "id", "INT", "BIGINT"⟩ :=
  ⟨by decide, compare_directional exA exB _ (by decide)⟩

/-! ### C2: comparing a schema against itself yields no diff -/

/-- C2: for every well-formed schema A — mappings keyed by the names the
code itself keys them by, as `parseTables` builds them — `compareTables A A`
is the empty diff list. -/
theorem compare_self_empty (A : Schema) (h : WFSchema A) :
    compareTables A A = [] := by
  unfold compareTables
  rw [List.flatMap_eq_nil_iff]
  intro p hp
  obtain ⟨hkey, hcnd, hckey, hind, hikey, hondk, hinner⟩ := h.2 p hp
  have hpA : (p.2.Name, p.2) ∈ A := by
    rw [← hkey]
    exact hp
  rw [compareTable_of_find_some (mfind_eq_of_mem h.1 hpA)]
  have hcols : p.2.Columns.flatMap
      (fun q => compareColumn p.2.Name p.2 q.2) = [] := by
    rw [List.flatMap_eq_nil_iff]
    intro q hq
    have hqC : (q.2.Name, q.2) ∈ p.2.Columns := by
      rw [← hckey q hq]
      exact hq
    rw [compareColumn_of_find_some (mfind_eq_of_mem hcnd hqC)]
    simp
  have hidx : p.2.Indexes.flatMap
      (fun q => compareIndex p.2.Name p.2 q.2) = [] := by
    rw [List.flatMap_eq_nil_iff]
    intro q hq
    have hqI : (q.2.ColumnName, q.2) ∈ p.2.Indexes := by
      rw [← hikey q hq]
      exact hq
    exact compareIndex_of_find_some (mfind_eq_of_mem hind hqI)
  have hcons : p.2.Constraints.flatMap
      (fun q => q.2.flatMap (compareConstraint p.2.Name q.1 p.2)) = [] := by
    rw [List.flatMap_eq_nil_iff]
    intro q hq
    rw [List.flatMap_eq_nil_iff]
    intro r hr
    have hfq : mfind p.2.Constraints q.1 = some q.2 := mfind_eq_of_mem hondk hq
    have hfr : mfind q.2 r.1 = some r.2 := mfind_eq_of_mem (hinner q hq) hr
    rw [compareConstraint_of_find_some (by rw [hfq]; exact hfr)]
    simp
  rw [hcols, hidx, hcons]
  simp

theorem compare_self_empty_witness :
    WFSchema exA ∧ compareTables exA exA = [] :=
  ⟨by decide, compare_self_empty exA (by decide)⟩

/-! ### C3: grouping is a stable partition by kind -/

theorem foldl_groupStep_eq (ds : List Diff) (g : DiffGroups) :
    ds.foldl groupStep g =
      ⟨g.missingTable ++ ds.filter (fun d => d.Typ == MissingTable),
       g.missingColumn ++ ds.filter (fun d => d.Typ == MissingColumn),
       g.wrongColumnType ++ ds.filter (fun d => d.Typ == WrongColumnType),
       g.wrongColumnOther ++ ds.filter (fun d => d.Typ == WrongColumnOther),
       g.missingIndex ++ ds.filter (fun d => d.Typ == MissingIndex),
       g.missingConstraint ++ ds.filter (fun d => d.Typ == MissingConstraint),
       g.wrongConstraintOther
         ++ ds.filter (fun d => d.Typ == WrongConstraintOther)⟩ := by
  induction ds generalizing g with
  | nil => simp
  | cons d ds ih =>
    rw [List.foldl_cons, ih (groupStep g d)]
    unfold groupStep
    by_cases h1 : (d.Typ == MissingTable) = true
    · simp +decide [h1, beq_iff_eq.mp h1, List.filter_cons, List.append_assoc]
    by_cases h2 : (d.Typ == MissingColumn) = true
    · simp +decide [h1, h2, beq_iff_eq.mp h2, List.filter_cons,
        List.append_assoc]
    by_cases h3 : (d.Typ == WrongColumnType) = true
    · simp +decide [h1, h2, h3, beq_iff_eq.mp h3, List.filter_cons,
        List.append_assoc]
    by_cases h4 : (d.Typ == WrongColumnOther) = true
    · simp +decide [h1, h2, h3, h4, beq_iff_eq.mp h4, List.filter_cons,
        List.append_assoc]
    by_cases h5 : (d.Typ == MissingIndex) = true
    · simp +decide [h1, h2, h3, h4, h5, beq_iff_eq.mp h5, List.filter_cons,
        List.append_assoc]
    by_cases h6 : (d.Typ == MissingConstraint) = true
    · simp +decide [h1, h2, h3, h4, h5, h6, beq_iff_eq.mp h6,
        List.filter_cons, List.append_assoc]
    by_cases h7 : (d.Typ == WrongConstraintOther) = true
    · simp +decide [h1, h2, h3, h4, h5, h6, h7, beq_iff_eq.mp h7,
        List.filter_cons, List.append_assoc]
    · simp [h1, h2, h3, h4, h5, h6, h7, List.filter_cons]

theorem groupByType_eq_kindBuckets (ds : List Diff) :
    groupByType ds = kindBuckets ds := by
  unfold groupByType kindBuckets
  rw [foldl_groupStep_eq]
  simp

theorem count_filter_neg {p : Diff → Bool} {a : Diff} (l : List Diff)
    (h : p a = false) : (l.filter p).count a = 0 := by
  rw [List.count_eq_zero]
  intro hmem
  have := List.of_mem_filter hmem
  rw [h] at this
  exact Bool.false_ne_true this

theorem knownKind_of_origin {tA : Table} {d : Diff}
    (h : OriginatesFromTable tA d) : knownKind d = true := by
  rcases h with ⟨h, -⟩ | ⟨q, -, ⟨h, -⟩ | ⟨h, -⟩ | ⟨h, -⟩⟩ | ⟨q, -, h, -⟩ |
      ⟨q, -, r, -, ⟨h, -⟩ | ⟨h, -⟩⟩ <;>
    · simp only [knownKind, h]
      decide

theorem knownKind_compareTables (A B : Schema) :
    ∀ d ∈ compareTables A B, knownKind d = true := by
  intro d h
  obtain ⟨p, hp, hd⟩ := List.mem_flatMap.mp h
  exact knownKind_of_origin (origin_of_mem_compareTable hd)

theorem count_filter_eq (p : Diff → Bool) (a : Diff) (l : List Diff) :
    (l.filter p).count a = if p a then l.count a else 0 := by
  by_cases h : p a = true
  · rw [if_pos h]
    exact List.count_filter h
  · rw [if_neg (by simpa using h)]
    exact count_filter_neg l (eq_false_of_ne_true h)

theorem kindBuckets_perm (ds : List Diff)
    (h : ∀ d ∈ ds, knownKind d = true) : (kindBuckets ds).Perm ds := by
  rw [List.perm_iff_count]
  intro a
  simp only [kindBuckets, List.count_append, count_filter_eq]
  by_cases t1 : (a.Typ == MissingTable) = true
  · simp +decide [beq_iff_eq.mp t1]
  by_cases t2 : (a.Typ == MissingColumn) = true
  · simp +decide [beq_iff_eq.mp t2]
  by_cases t3 : (a.Typ == WrongColumnType) = true
  · simp +decide [beq_iff_eq.mp t3]
  by_cases t4 : (a.Typ == WrongColumnOther) = true
  · simp +decide [beq_iff_eq.mp t4]
  by_cases t5 : (a.Typ == MissingConstraint) = true
  · simp +decide [beq_iff_eq.mp t5]
  by_cases t6 : (a.Typ == WrongConstraintOther) = true
  · simp +decide [beq_iff_eq.mp t6]
  by_cases t7 : (a.Typ == MissingIndex) = true
  · simp +decide [beq_iff_eq.mp t7]
  · -- a's kind is unknown, so a does not occur in ds at all
    have hzero : ds.count a = 0 := by
      rw [List.count_eq_zero]
      intro hmem
      have hk := h a hmem
      simp only [knownKind, Bool.or_eq_true] at hk
      rcases hk with ((((((k | k) | k) | k) | k) | k) | k)
      · exact t1 k
      · exact t2 k
      · exact t3 k
      · exact t4 k
      · exact t7 k
      · exact t5 k
      · exact t6 k
    rw [hzero]
    simp [t1, t2, t3, t4, t5, t6, t7]

/-- C3: on every diff list produced by `compareTables`, `groupByType`
returns exactly the concatenation of the kind buckets in the fixed
priority order (`kindBuckets`), each bucket a stable filter of the input,
and the result is a permutation of the input — nothing lost or
duplicated. -/
theorem groupByType_partition (A B : Schema) :
    groupByType (compareTables A B) = kindBuckets (compareTables A B) ∧
    (groupByType (compareTables A B)).Perm (compareTables A B) := by
  refine ⟨groupByType_eq_kindBuckets _, ?_⟩
  rw [groupByType_eq_kindBuckets]
  exact kindBuckets_perm _ (knownKind_compareTables A B)

/-! ### Membership injection into `compareTables` -/

theorem mem_compareTables_of_column {A B : Schema} {p : String × Table}
    {tB : Table} {q : String × Column} {d : Diff}
    (hp : p ∈ A) (hf : mfind B p.2.Name = some tB) (hq : q ∈ p.2.Columns)
    (hd : d ∈ compareColumn p.2.Name tB q.2) : d ∈ compareTables A B := by
  refine List.mem_flatMap.mpr ⟨p, hp, ?_⟩
  rw [compareTable_of_find_some hf]
  have hmem : d ∈ p.2.Columns.flatMap
      (fun q2 => compareColumn p.2.Name tB q2.2) :=
    List.mem_flatMap.mpr ⟨q, hq, hd⟩
  simp [List.mem_append, hmem]

theorem mem_compareTables_of_index {A B : Schema} {p : String × Table}
    {tB : Table} {q : String × Index} {d : Diff}
    (hp : p ∈ A) (hf : mfind B p.2.Name = some tB) (hq : q ∈ p.2.Indexes)
    (hd : d ∈ compareIndex p.2.Name tB q.2) : d ∈ compareTables A B := by
  refine List.mem_flatMap.mpr ⟨p, hp, ?_⟩
  rw [compareTable_of_find_some hf]
  have hmem : d ∈ p.2.Indexes.flatMap
      (fun q2 => compareIndex p.2.Name tB q2.2) :=
    List.mem_flatMap.mpr ⟨q, hq, hd⟩
  simp [List.mem_append, hmem]

/-! ### C5: the type check and the other check are independent -/

/-- C5: a column present in both tables whose `Type` strings differ and
whose `Other` strings differ produces exactly two diffs — one
WRONG_COLUMN_TYPE and one WRONG_COLUMN_OTHER, both targeting
`table.column` — and both appear in `compareTables A B`. -/
theorem column_checks_independent (A B : Schema) (p : String × Table)
    (tB : Table) (q : String × Column) (cB : Column)
    (hp : p ∈ A) (hf : mfind B p.2.Name = some tB) (hq : q ∈ p.2.Columns)
    (hc : mfind tB.Columns q.2.Name = some cB)
    (hT : q.2.Typ ≠ cB.Typ) (hO : q.2.Other ≠ cB.Other) :
    compareColumn p.2.Name tB q.2 =
      [⟨WrongColumnType, p.2.Name ++ "." ++ q.2.Name, q.2.Typ, cB.Typ⟩,
       ⟨WrongColumnOther, p.2.Name ++ "." ++ q.2.Name, q.2.Other, cB.Other⟩]
    ∧ ⟨WrongColumnType, p.2.Name ++ "." ++ q.2.Name, q.2.Typ, cB.Typ⟩
        ∈ compareTables A B
    ∧ ⟨WrongColumnOther, p.2.Name ++ "." ++ q.2.Name, q.2.Other, cB.Other⟩
        ∈ compareTables A B := by
  have heq : compareColumn p.2.Name tB q.2 =
      [⟨WrongColumnType, p.2.Name ++ "." ++ q.2.Name, q.2.Typ, cB.Typ⟩,
       ⟨WrongColumnOther, p.2.Name ++ "." ++ q.2.Name, q.2.Other, cB.Other⟩] := by
    rw [compareColumn_of_find_some hc, if_pos hT, if_pos hO]
    rfl
  refine ⟨heq, ?_, ?_⟩
  · exact mem_compareTables_of_column hp hf hq (by rw [heq]; simp)
  · exact mem_compareTables_of_column hp hf hq (by rw [heq]; simp)

theorem column_checks_independent_witness :
    (⟨WrongColumnType, "users" ++ "." ++ "id", "INT", "BIGINT"⟩ : Diff)
      ∈ compareTables exA exB ∧
    (⟨WrongColumnOther, "users" ++ "." ++ "id", "NOT NULL", "NULL"⟩ : Diff)
      ∈ compareTables exA exB := by
  have h := column_checks_independent exA exB ("users", tblUsersA) tblUsersB
    ("id", ⟨"id", "INT", "NOT NULL"⟩) ⟨"id", "BIGINT", "NULL"⟩
    (by decide) (by decide) (by decide) (by decide) (by decide) (by decide)
  exact ⟨h.2.1, h.2.2⟩

/-! ### C6: shape of MISSING_COLUMN diffs -/

/-- C6: a column of a table of A absent from the corresponding table of B
produces exactly the MISSING_COLUMN diff whose target is the table name
alone, A-value the column name, B-value empty — with no type or other
check for that column — and this diff appears in `compareTables A B`. -/
theorem missing_column_shape (A B : Schema) (p : String × Table) (tB : Table)
    (q : String × Column)
    (hp : p ∈ A) (hf : mfind B p.2.Name = some tB) (hq : q ∈ p.2.Columns)
    (hc : mfind tB.Columns q.2.Name = none) :
    compareColumn p.2.Name tB q.2 = [⟨MissingColumn, p.2.Name, q.2.Name, ""⟩]
    ∧ ⟨MissingColumn, p.2.Name, q.2.Name, ""⟩ ∈ compareTables A B := by
  refine ⟨?_, ?_⟩
  · rw [compareColumn_of_find_none hc]
  · exact mem_compareTables_of_column hp hf hq
      (by rw [compareColumn_of_find_none hc]; simp)

theorem missing_column_shape_witness :
    (⟨MissingColumn, "users", "name", ""⟩ : Diff) ∈ compareTables exA exB :=
  (missing_column_shape exA exB ("users", tblUsersA) tblUsersB
    ("name", ⟨"name", "VARCHAR(50)", ""⟩)
    (by decide) (by decide) (by decide) (by decide)).2

/-! ### C7: indexes are checked for presence only -/

/-- C7: an index of A whose key column has no index entry in B's table
produces the MISSING_INDEX diff (target `table.column`, A the index name,
B empty), which appears in `compareTables A B`; an index of A whose key
column does have an entry in B produces no diff, even when the two index
names differ. -/
theorem missing_index_only_presence (A B : Schema) (p : String × Table)
    (tB : Table) (q1 q2 : String × Index) (iB : Index)
    (hp : p ∈ A) (hf : mfind B p.2.Name = some tB)
    (hq1 : q1 ∈ p.2.Indexes) (h1 : mfind tB.Indexes q1.2.ColumnName = none)
    (hq2 : q2 ∈ p.2.Indexes) (h2 : mfind tB.Indexes q2.2.ColumnName = some iB)
    (hname : q2.2.Name ≠ iB.Name) :
    compareIndex p.2.Name tB q1.2 =
      [⟨MissingIndex, p.2.Name ++ "." ++ q1.2.ColumnName, q1.2.Name, ""⟩]
    ∧ ⟨MissingIndex, p.2.Name ++ "." ++ q1.2.ColumnName, q1.2.Name, ""⟩
        ∈ compareTables A B
    ∧ compareIndex p.2.Name tB q2.2 = [] := by
  refine ⟨?_, ?_, ?_⟩
  · rw [compareIndex_of_find_none h1]
  · exact mem_compareTables_of_index hp hf hq1
      (by rw [compareIndex_of_find_none h1]; simp)
  · exact compareIndex_of_find_some h2

theorem missing_index_only_presence_witness :
    (⟨MissingIndex, "users" ++ "." ++ "name", "idx_name", ""⟩ : Diff)
      ∈ compareTables exA exB ∧
    compareIndex "users" tblUsersB ⟨"idx_id", "id"⟩ = [] := by
  have h := missing_index_only_presence exA exB ("users", tblUsersA)
    tblUsersB ("name", ⟨"idx_name", "name"⟩) ("id", ⟨"idx_id", "id"⟩)
    ⟨"pk_id", "id"⟩ (by decide) (by decide) (by decide) (by decide)
    (by decide) (by decide) (by decide)
  exact ⟨h.2.1, h.2.2⟩

/-! ### C4: totality of the parser -/

theorem exists_getElem?_of_lt {l : List String} {i : Nat}
    (h : i + 1 ≤ l.length) : ∃ x, l[i]? = some x := by
  cases hx : l[i]? with
  | none => exact absurd (List.getElem?_eq_none_iff.mp hx) (by omega)
  | some x => exact ⟨x, rfl⟩

theorem restOfBranches_isSome (st : PState) (infos : List String)
    (h : infosSafe infos) : (restOfBranches st infos).isSome := by
  obtain ⟨hcr, hcol, hkey, hcons, hpu⟩ := h
  by_cases c1 : (st.analyzingTable && !isKeyword (infos.headD "")) = true
  · -- column definition branch: infos[1] is consumed
    have hlen : 2 ≤ infos.length := by
      refine hcol ?_
      rcases Bool.and_eq_true_iff.mp c1 with ⟨-, hk2⟩
      simpa using hk2
    obtain ⟨t1, ht1⟩ := exists_getElem?_of_lt (show 1 + 1 ≤ infos.length by omega)
    simp only [restOfBranches]
    rw [if_pos c1, ht1]
    simp
  by_cases c2 : (st.analyzingTable && infos.headD "" == "KEY") = true
  · -- KEY branch: infos[1] and infos[2] are consumed
    have hlen : 3 ≤ infos.length := by
      refine hkey ?_
      rcases Bool.and_eq_true_iff.mp c2 with ⟨-, hk2⟩
      simpa using hk2
    obtain ⟨t1, ht1⟩ := exists_getElem?_of_lt (show 1 + 1 ≤ infos.length by omega)
    obtain ⟨t2, ht2⟩ := exists_getElem?_of_lt (show 2 + 1 ≤ infos.length by omega)
    simp only [restOfBranches]
    rw [if_neg c1, if_pos c2, ht1, ht2]
    simp
  by_cases c3 : (st.analyzingTable && infos.headD "" == "CONSTRAINT") = true
  · -- CONSTRAINT branch: infos[1], infos[4] and infos[2] are consumed
    have hlen : 5 ≤ infos.length := by
      refine hcons ?_
      rcases Bool.and_eq_true_iff.mp c3 with ⟨-, hk2⟩
      simpa using hk2
    obtain ⟨t1, ht1⟩ := exists_getElem?_of_lt (show 1 + 1 ≤ infos.length by omega)
    obtain ⟨t2, ht2⟩ := exists_getElem?_of_lt (show 2 + 1 ≤ infos.length by omega)
    obtain ⟨t4, ht4⟩ := exists_getElem?_of_lt (show 4 + 1 ≤ infos.length by omega)
    simp only [restOfBranches]
    rw [if_neg c1, if_neg c2, if_pos c3, ht1, ht4, ht2]
    simp
  by_cases c4 : (st.analyzingTable
      && (infos.headD "" == "PRIMARY" || infos.headD "" == "UNIQUE")) = true
  · -- PRIMARY / UNIQUE branch: infos[2] is consumed
    have hlen : 3 ≤ infos.length := by
      refine hpu ?_
      rcases Bool.and_eq_true_iff.mp c4 with ⟨-, hk2⟩
      rcases Bool.or_eq_true_iff.mp hk2 with hk3 | hk3
      · exact Or.inl (by simpa using hk3)
      · exact Or.inr (by simpa using hk3)
    obtain ⟨t2, ht2⟩ := exists_getElem?_of_lt (show 2 + 1 ≤ infos.length by omega)
    simp only [restOfBranches]
    rw [if_neg c1, if_neg c2, if_neg c3, if_pos c4, ht2]
    simp
  · simp only [restOfBranches]
    rw [if_neg c1, if_neg c2, if_neg c3, if_neg c4]
    simp

theorem parseLine_isSome (st : PState) (l : String) (h : LineSafe l) :
    (parseLine st l).isSome := by
  unfold LineSafe at h
  simp only [parseLine]
  split
  · simp
  next =>
    split
    next hcr =>
      obtain ⟨hlen2, htab⟩ := h.1 (by simpa using hcr)
      split
      next hnone =>
        exact absurd (List.getElem?_eq_none_iff.mp hnone) (by omega)
      next t1 ht1 =>
        split
        next htb =>
          have hlen3 : 3 ≤ (goSplit (trimChar l ' ') ' ').length := by
            refine htab ?_
            rw [ht1, beq_iff_eq.mp htb]
          split
          next hnone =>
            exact absurd (List.getElem?_eq_none_iff.mp hnone) (by omega)
          next => simp
        next => exact restOfBranches_isSome st _ h
    next => exact restOfBranches_isSome st _ h

theorem parseLines_isSome (ls : List String) (st : PState)
    (h : ∀ l ∈ ls, LineSafe l) : (parseLines st ls).isSome := by
  induction ls generalizing st with
  | nil => simp [parseLines]
  | cons l ls ih =>
    unfold parseLines
    have h1 := parseLine_isSome st l (h l (List.mem_cons_self l ls))
    rcases hres : parseLine st l with _ | st2
    · rw [hres] at h1
      simp at h1
    · exact ih st2 (fun x hx => h x (List.mem_cons_of_mem _ hx))

/-- C4 (amended): the parser is total on every input whose lines supply
the tokens their first-token classification can consume (`AllLinesSafe`);
on such input each unmatched line is skipped and a schema is returned.
On other input, a token access can be out of range — see
`parse_panics_on_bare_create`. -/
theorem parse_total_on_safe_lines (data : String) (h : AllLinesSafe data) :
    (parseTables data).isSome := by
  unfold parseTables
  have hs := parseLines_isSome (goSplit data '\n') ⟨zeroTable, [], false⟩ h
  rcases hres : parseLines ⟨zeroTable, [], false⟩ (goSplit data '\n')
    with _ | st
  · rw [hres] at hs
    simp at hs
  · simp

theorem parse_total_on_safe_lines_witness :
    AllLinesSafe "CREATE TABLE `t` (\nid INT,\nPRIMARY KEY (`id`),\n) ENGINE=InnoDB ;"
    ∧ (parseTables "CREATE TABLE `t` (\nid INT,\nPRIMARY KEY (`id`),\n) ENGINE=InnoDB ;").isSome :=
  ⟨by decide, parse_total_on_safe_lines _ (by decide)⟩

/-- C4 counterexample: on the input consisting of the single line
`CREATE`, the guard `infos[0] == "CREATE" && infos[1] == "TABLE"`
evaluates `infos[1]` on a one-token line — a Go index-out-of-range panic,
embedded as `none` — so `parseTables` does not return a schema. -/
theorem parse_panics_on_bare_create : parseTables "CREATE" = none := by
  decide

/-! ### C9: the trailing degenerate table -/

theorem restOfBranches_not_analyzing (st : PState) (infos : List String)
    (h : st.analyzingTable = false) : restOfBranches st infos = some st := by
  simp only [restOfBranches, h]
  simp

theorem parseLine_no_header {l : String} {st st' : PState}
    (h : isHeaderLine l = false) (hp : parseLine st l = some st')
    (hst : st.analyzingTable = false) : st' = st := by
  have hrb := restOfBranches_not_analyzing st (goSplit (trimChar l ' ') ' ') hst
  simp only [parseLine] at hp
  split at hp
  · exact (Option.some.inj hp).symm
  split at hp
  next hcr =>
    split at hp
    next => exact Option.noConfusion hp
    next t1 ht1 =>
      split at hp
      next htab =>
        -- this would be a CREATE TABLE header line
        exfalso
        have hhd : isHeaderLine l = true := by
          have hcr2 := beq_iff_eq.mp hcr
          simp only [List.headD_eq_head?_getD] at hcr2 ⊢
          simp [isHeaderLine, ht1, hcr2, beq_iff_eq.mp htab]
        rw [hhd] at h
        exact Bool.noConfusion h
      next =>
        rw [hrb] at hp
        exact (Option.some.inj hp).symm
  next =>
    rw [hrb] at hp
    exact (Option.some.inj hp).symm

theorem parseLines_no_header (ls : List String)
    (h : ∀ l ∈ ls, isHeaderLine l = false) (st' : PState)
    (hp : parseLines ⟨zeroTable, [], false⟩ ls = some st') :
    st' = ⟨zeroTable, [], false⟩ := by
  induction ls with
  | nil =>
    simp only [parseLines, Option.some.injEq] at hp
    exact hp.symm
  | cons l ls ih =>
    unfold parseLines at hp
    rcases hres : parseLine ⟨zeroTable, [], false⟩ l with _ | st2
    · rw [hres] at hp
      exact Option.noConfusion hp
    · rw [hres] at hp
      have hst2 : st2 = ⟨zeroTable, [], false⟩ :=
        parseLine_no_header (h l (List.mem_cons_self l ls)) hres rfl
      rw [hst2] at hp
      exact ih (fun x hx => h x (List.mem_cons_of_mem _ hx)) hp

/-- C9 (amended): on every input that contains no `CREATE TABLE` header
line and on which the parse completes (no out-of-range token access — a
bare `CREATE` line can abort it, see the counterexample), the
unconditional final commit inserts exactly one degenerate table, keyed by
the empty string: the resulting schema is `[("", zeroTable)]`. -/
theorem trailing_empty_table (data : String) (tables : Schema)
    (h1 : noHeaderLines data = true) (h2 : parseTables data = some tables) :
    tables = [("", zeroTable)] := by
  unfold parseTables at h2
  rcases hres : parseLines ⟨zeroTable, [], false⟩ (goSplit data '\n')
    with _ | st
  · rw [hres] at h2
    exact Option.noConfusion h2
  · rw [hres] at h2
    have hst : st = ⟨zeroTable, [], false⟩ := by
      refine parseLines_no_header _ ?_ st hres
      intro l hl
      unfold noHeaderLines at h1
      rw [List.all_eq_true] at h1
      simpa using h1 l hl
    subst hst
    simp only [Option.some.injEq] at h2
    rw [← h2]
    rfl

theorem trailing_empty_table_witness :
    noHeaderLines "id INT NOT NULL," = true ∧
    parseTables "id INT NOT NULL," = some [("", zeroTable)] := by
  refine ⟨by decide, ?_⟩
  have hres : parseTables "id INT NOT NULL," =
      some (minsert ([] : Schema) "" zeroTable) := by decide
  rw [hres, trailing_empty_table "id INT NOT NULL,"
    (minsert ([] : Schema) "" zeroTable) (by decide) hres]

/-- C9 counterexample: the two-line input `x`, `CREATE` contains no
`CREATE TABLE` header line, yet `parseTables` aborts on the bare `CREATE`
line (out-of-range token access) and returns no schema mapping at all —
so no degenerate table is inserted for it. -/
theorem trailing_empty_table_counterexample :
    noHeaderLines "x\nCREATE" = true ∧ parseTables "x\nCREATE" = none := by
  decide

/-! ### C8: at most one constraint per (column, kind) -/

theorem storeConstraint_consNodup {t : Table} (col kind : String)
    (c : Constraint) (h : TableConsNodup t) :
    TableConsNodup (storeConstraint t col kind c) := by
  obtain ⟨h1, h2⟩ := h
  simp only [storeConstraint]
  constructor
  · exact nodupKeys_minsert col _ h1
  · intro p hp
    rcases mem_minsert hp with hm | rfl
    · exact h2 p hm
    · refine nodupKeys_minsert kind c ?_
      rcases hfi : mfind t.Constraints col with _ | m
      · simp [hfi, NodupKeys]
      · simpa [hfi] using h2 (col, m) (mfind_mem hfi)

theorem restOfBranches_consInv (st st' : PState) (infos : List String)
    (h1 : TableConsNodup st.table) (h2 : ∀ p ∈ st.tables, TableConsNodup p.2)
    (he : restOfBranches st infos = some st') :
    TableConsNodup st'.table ∧ ∀ p ∈ st'.tables, TableConsNodup p.2 := by
  simp only [restOfBranches] at he
  by_cases c1 : (st.analyzingTable && !isKeyword (infos.headD "")) = true
  · rw [if_pos c1] at he
    rcases ht1 : infos[1]? with _ | t1
    · rw [ht1] at he
      exact Option.noConfusion he
    · rw [ht1] at he
      obtain rfl := Option.some.inj he
      exact ⟨h1, h2⟩
  rw [if_neg c1] at he
  by_cases c2 : (st.analyzingTable && infos.headD "" == "KEY") = true
  · rw [if_pos c2] at he
    rcases ht1 : infos[1]? with _ | t1
    · rw [ht1] at he
      exact Option.noConfusion he
    rw [ht1] at he
    rcases ht2 : infos[2]? with _ | t2
    · rw [ht2] at he
      exact Option.noConfusion he
    rw [ht2] at he
    obtain rfl := Option.some.inj he
    exact ⟨h1, h2⟩
  rw [if_neg c2] at he
  by_cases c3 : (st.analyzingTable && infos.headD "" == "CONSTRAINT") = true
  · rw [if_pos c3] at he
    rcases ht1 : infos[1]? with _ | t1
    · rw [ht1] at he
      exact Option.noConfusion he
    rw [ht1] at he
    rcases ht4 : infos[4]? with _ | t4
    · rw [ht4] at he
      exact Option.noConfusion he
    rw [ht4] at he
    rcases ht2 : infos[2]? with _ | t2
    · rw [ht2] at he
      exact Option.noConfusion he
    rw [ht2] at he
    obtain rfl := Option.some.inj he
    exact ⟨storeConstraint_consNodup _ _ _ h1, h2⟩
  rw [if_neg c3] at he
  by_cases c4 : (st.analyzingTable
      && (infos.headD "" == "PRIMARY" || infos.headD "" == "UNIQUE")) = true
  · rw [if_pos c4] at he
    rcases ht2 : infos[2]? with _ | t2
    · rw [ht2] at he
      exact Option.noConfusion he
    rw [ht2] at he
    obtain rfl := Option.some.inj he
    exact ⟨storeConstraint_consNodup _ _ _ h1, h2⟩
  rw [if_neg c4] at he
  obtain rfl := Option.some.inj he
  exact ⟨h1, h2⟩

theorem parseLine_consInv (st st' : PState) (l : String)
    (h1 : TableConsNodup st.table) (h2 : ∀ p ∈ st.tables, TableConsNodup p.2)
    (he : parseLine st l = some st') :
    TableConsNodup st'.table ∧ ∀ p ∈ st'.tables, TableConsNodup p.2 := by
  simp only [parseLine] at he
  split at he
  · obtain rfl := Option.some.inj he
    exact ⟨h1, h2⟩
  split at he
  next hcr =>
    split at he
    next => exact Option.noConfusion he
    next t1 ht1 =>
      split at he
      next htab =>
        split at he
        next => exact Option.noConfusion he
        next t2 ht2 =>
          obtain rfl := Option.some.inj he
          refine ⟨⟨List.nodup_nil, by simp⟩, ?_⟩
          intro p hp
          by_cases ha : st.analyzingTable = true
          · rw [if_pos ha] at hp
            rcases mem_minsert hp with hm | rfl
            · exact h2 p hm
            · exact h1
          · rw [if_neg ha] at hp
            exact h2 p hp
      next => exact restOfBranches_consInv st st' _ h1 h2 he
  next => exact restOfBranches_consInv st st' _ h1 h2 he

theorem parseLines_consInv (ls : List String) (st st' : PState)
    (h1 : TableConsNodup st.table) (h2 : ∀ p ∈ st.tables, TableConsNodup p.2)
    (he : parseLines st ls = some st') :
    TableConsNodup st'.table ∧ ∀ p ∈ st'.tables, TableConsNodup p.2 := by
  induction ls generalizing st with
  | nil =>
    simp only [parseLines, Option.some.injEq] at he
    exact he ▸ ⟨h1, h2⟩
  | cons l ls ih =>
    unfold parseLines at he
    rcases hres : parseLine st l with _ | st2
    · rw [hres] at he
      exact Option.noConfusion he
    · rw [hres] at he
      obtain ⟨g1, g2⟩ := parseLine_consInv st st2 l h1 h2 hres
      exact ih st2 g1 g2 he

theorem constraintsFor_le_one (t : Table) (h : TableConsNodup t)
    (col kind : String) : (constraintsFor t col kind).length ≤ 1 := by
  obtain ⟨h1, h2⟩ := h
  unfold constraintsFor
  have hf := filter_key_length_le_one col h1
  rcases hfil : t.Constraints.filter (fun q => q.1 == col) with _ | ⟨q, rest⟩
  · rw [hfil]
    simp
  · rw [hfil] at hf
    have hrest : rest = [] := by
      cases rest with
      | nil => rfl
      | cons a as => simp at hf
    subst hrest
    rw [hfil]
    simp only [List.flatMap_cons, List.flatMap_nil, List.append_nil,
      List.length_map]
    have hq : q ∈ t.Constraints := by
      refine List.mem_of_mem_filter (p := fun q => q.1 == col) ?_
      rw [hfil]
      exact List.mem_cons_self q []
    exact filter_key_length_le_one kind (h2 q hq)

/-- C8: every schema `parseTables` produces keeps at most one constraint
per (column name, constraint kind) pair in each table — the later
occurrence overwrote the earlier one via the map assignment. -/
theorem constraints_at_most_one (data : String) (tables : Schema)
    (h : parseTables data = some tables) (p : String × Table)
    (hp : p ∈ tables) (col kind : String) :
    (constraintsFor p.2 col kind).length ≤ 1 := by
  unfold parseTables at h
  rcases hres : parseLines ⟨zeroTable, [], false⟩ (goSplit data '\n')
    with _ | st
  · rw [hres] at h
    exact Option.noConfusion h
  · rw [hres] at h
    obtain ⟨g1, g2⟩ := parseLines_consInv (goSplit data '\n')
      ⟨zeroTable, [], false⟩ st (by decide) (by simp) hres
    obtain rfl := Option.some.inj h
    have hcn : TableConsNodup p.2 := by
      rcases mem_minsert hp with hm | rfl
      · exact g2 p hm
      · exact g1
    exact constraintsFor_le_one p.2 hcn col kind

theorem constraints_at_most_one_witness :
    parseTables "CREATE TABLE `t` (\nCONSTRAINT `c1` FOREIGN KEY (`x`) REFERENCES a (`i`),\nCONSTRAINT `c2` FOREIGN KEY (`x`) REFERENCES b (`i`)," =
      some [("t", ⟨"t", [], [],
        [("x", [("FOREIGN", ⟨"c2", "x", "FOREIGN", "REFERENCES b (`i`)"⟩)])]⟩)]
    ∧ (constraintsFor
        ⟨"t", [], [],
          [("x", [("FOREIGN", ⟨"c2", "x", "FOREIGN", "REFERENCES b (`i`)"⟩)])]⟩
        "x" "FOREIGN").length ≤ 1 := by
  refine ⟨by decide, ?_⟩
  exact constraints_at_most_one
    "CREATE TABLE `t` (\nCONSTRAINT `c1` FOREIGN KEY (`x`) REFERENCES a (`i`),\nCONSTRAINT `c2` FOREIGN KEY (`x`) REFERENCES b (`i`),"
    [("t", ⟨"t", [], [],
      [("x", [("FOREIGN", ⟨"c2", "x", "FOREIGN", "REFERENCES b (`i`)"⟩)])]⟩)]
    (by decide)
    ("t", ⟨"t", [], [],
      [("x", [("FOREIGN", ⟨"c2", "x", "FOREIGN", "REFERENCES b (`i`)"⟩)])]⟩)
    (by decide) "x" "FOREIGN"

/-! ### C10: the column type token is stored verbatim, comma included -/

theorem restOfBranches_column (st : PState) (infos : List String)
    (t1 : String) (c1 : (st.analyzingTable && !isKeyword (infos.headD "")) = true)
    (ht1 : infos[1]? = some t1) :
    restOfBranches st infos = some { st with table := { st.table with Columns := minsert st.table.Columns (trimChar (infos.headD "") backquote) ⟨trimChar (infos.headD "") backquote, t1, trimChar (joinSpace (infos.drop 2)) ','⟩ } } := by
  simp only [restOfBranches]
  rw [if_pos c1, ht1]

/-- C10: a column definition line stores the second token as the column
type verbatim, trailing comma included — the comma is trimmed only from
the joined remainder.  Concretely, `id INT,` is stored with type `INT,`
and `id INT NOT NULL,` with type `INT` (other `NOT NULL`), and comparing
the two produces a WRONG_COLUMN_TYPE diff (besides the
WRONG_COLUMN_OTHER one). -/
theorem column_type_verbatim_comma :
    parseTables "CREATE TABLE `t` (\nid INT," =
      some [("t", ⟨"t", [("id", ⟨"id", "INT,", ""⟩)], [], []⟩)] ∧
    parseTables "CREATE TABLE `t` (\nid INT NOT NULL," =
      some [("t", ⟨"t", [("id", ⟨"id", "INT", "NOT NULL"⟩)], [], []⟩)] ∧
    compareTables [("t", ⟨"t", [("id", ⟨"id", "INT,", ""⟩)], [], []⟩)]
        [("t", ⟨"t", [("id", ⟨"id", "INT", "NOT NULL"⟩)], [], []⟩)] =
      [⟨WrongColumnType, "t.id", "INT,", "INT"⟩,
       ⟨WrongColumnOther, "t.id", "", "NOT NULL"⟩] := by
  decide

end SQLCompare
